import Mathlib

/-!
Shallow embedding of the core logic of the catacombing/alarm repository:
the rezz daemon's alarm store and RTC coordinator (rezz/src/dbus.rs), the
RTC register conversions (rezz/src/ioctl.rs), the suspend-immune wait
primitive (src/timer.rs) and the client-side next-alarm computation
(src/lib.rs). Instants are represented by their unix timestamp in seconds
(an `Int`, standing for the Rust i64); machine-integer casts are made
explicit where the code performs them.
-/

/-- A single alarm record (rezz/src/lib.rs). `unix_time` is an i64 number of
seconds since the unix epoch; `ring_seconds` is a u32 ring duration. -/
structure Alarm where
  id : String
  unix_time : Int
  ring_seconds : Nat
deriving DecidableEq, Repr

/-- Observable side effects of a Store mutation: the watch-channel broadcast
and the whole-file rewrite carrying the serialized snapshot, listed in the
order the code performs them. -/
inductive Ev where
  | notify : Ev
  | fileWrite : List Alarm → Ev
deriving DecidableEq, Repr

/-- Effects of `Store::sync` (rezz/src/dbus.rs): it first signals the change
channel (`onchange_tx.send`), then truncates and rewrites the database file
with the full snapshot. -/
def Store.sync (alarms : List Alarm) : List Ev :=
  [Ev.notify, Ev.fileWrite alarms]

/-- Model of `Store::upcoming`:
`self.alarms.iter().min_by_key(|alarm| alarm.unix_time)`. Rust's
`min_by_key` returns the first element attaining the minimal key. -/
def Store.upcoming : List Alarm → Option Alarm
  | [] => none
  | a :: rest =>
    match Store.upcoming rest with
    | none => some a
    | some b => if a.unix_time ≤ b.unix_time then some a else some b

/-- Model of `Store::add`: returns false without touching anything when an
alarm with the same id exists, otherwise pushes the alarm and syncs.
Result: (returned Bool, new alarm list, emitted effects). -/
def Store.add (alarm : Alarm) (alarms : List Alarm) :
    Bool × List Alarm × List Ev :=
  if alarms.any (fun existing => existing.id == alarm.id) then
    (false, alarms, [])
  else
    let alarms := alarms ++ [alarm]
    (true, alarms, Store.sync alarms)

/-- Model of `iter().position(|alarm| alarm.id == id)` followed by
`Vec::remove`: removes the first alarm with the given id, returning it and
the remaining list. -/
def removeFirstById (id : String) : List Alarm → Option (Alarm × List Alarm)
  | [] => none
  | a :: rest =>
    if a.id == id then some (a, rest)
    else
      match removeFirstById id rest with
      | none => none
      | some (r, rest') => some (r, a :: rest')

/-- Model of `Store::remove`: removes the first alarm with a matching id and
syncs; a no-op returning none for an unknown id. -/
def Store.remove (id : String) (alarms : List Alarm) :
    Option Alarm × List Alarm × List Ev :=
  match removeFirstById id alarms with
  | none => (none, alarms, [])
  | some (removed, rest) => (some removed, rest, Store.sync rest)

/-- The retain predicate of `Store::remove_elapsed`:
`alarm.unix_time + alarm.ring_seconds as i64 > unix_now()`. -/
def notElapsed (now : Int) (alarm : Alarm) : Bool :=
  decide (now < alarm.unix_time + (alarm.ring_seconds : Int))

/-- Model of `Store::remove_elapsed`: retains the non-elapsed alarms, returns
the number of removed entries, and syncs only when that number is nonzero. -/
def Store.removeElapsed (now : Int) (alarms : List Alarm) :
    Nat × List Alarm × List Ev :=
  let retained := alarms.filter (notElapsed now)
  let removedCount := alarms.length - retained.length
  (removedCount, retained, if 0 < removedCount then Store.sync retained else [])

/-- Model of `Rezz::schedule_nearest` (rezz/src/dbus.rs): reads the staged RTC
wakeup and the nearest alarm; leaves the register alone when a wakeup is
staged in the future at or before the nearest alarm's time
(`wakeup > current_time && time >= wakeup`), otherwise stages the nearest
alarm's trigger instant. `staged` is the register contents as read by
`get_wakeup`; the returned value is the register contents afterwards. -/
def scheduleNearest (alarms : List Alarm) (staged : Option Int) (now : Int) :
    Option Int :=
  match Store.upcoming alarms with
  | none => staged
  | some nextAl =>
    let time := nextAl.unix_time
    match staged with
    | some wakeup => if wakeup > now ∧ time ≥ wakeup then some wakeup else some time
    | none => some time

/-- Errors returned at the DBus service boundary (`ZBusError::InvalidArgs`
with the respective message). -/
inductive SvcError where
  | alreadyExists : String → SvcError
  | invalidId : String → SvcError
deriving DecidableEq, Repr

/-- Model of the service method `Rezz::add_alarm`: fails with an
"ID already exists" error when `Store::add` returns false, otherwise re-runs
`schedule_nearest`. -/
def Rezz.addAlarm (alarm : Alarm) (alarms : List Alarm) (staged : Option Int)
    (now : Int) : Except SvcError (List Alarm × List Ev × Option Int) :=
  match Store.add alarm alarms with
  | (false, _, _) => Except.error (SvcError.alreadyExists alarm.id)
  | (true, alarms', evs) =>
    Except.ok (alarms', evs, scheduleNearest alarms' staged now)

/-- Observable result of a successful `Rezz::remove_alarm` call: the removed
alarm, the remaining store, the store effects, the RTC register contents
afterwards, and whether `clear_wakeup` was invoked. -/
structure RemoveOutcome where
  removed : Alarm
  alarms : List Alarm
  evs : List Ev
  staged : Option Int
  cleared : Bool
deriving DecidableEq, Repr

/-- Model of the service method `Rezz::remove_alarm`: errors with an
"Invalid ID" message for an unknown id; otherwise, when a wakeup is staged
and equals the removed alarm's trigger instant, clears the register and
re-runs `schedule_nearest` against the now-empty register; when no wakeup is
staged or it differs from the removed alarm's instant, returns with the
register untouched. -/
def Rezz.removeAlarm (id : String) (alarms : List Alarm) (staged : Option Int)
    (now : Int) : Except SvcError RemoveOutcome :=
  match Store.remove id alarms with
  | (none, _, _) => Except.error (SvcError.invalidId id)
  | (some removed, rest, evs) =>
    match staged with
    | none => Except.ok ⟨removed, rest, evs, none, false⟩
    | some wakeup =>
      if removed.unix_time = wakeup then
        Except.ok ⟨removed, rest, evs, scheduleNearest rest none now, true⟩
      else
        Except.ok ⟨removed, rest, evs, some wakeup, false⟩

/-- A client-visible store mutation, for stating the id-uniqueness invariant
over arbitrary call sequences. -/
inductive StoreOp where
  | add : Alarm → StoreOp
  | remove : String → StoreOp

/-- The alarm list resulting from one store mutation. -/
def applyOp (op : StoreOp) (alarms : List Alarm) : List Alarm :=
  match op with
  | StoreOp.add a => (Store.add a alarms).2.1
  | StoreOp.remove id => (Store.remove id alarms).2.1

/-- The alarm list resulting from a sequence of store mutations. -/
def applyOps (ops : List StoreOp) (alarms : List Alarm) : List Alarm :=
  ops.foldl (fun l op => applyOp op l) alarms

/-- Kernel timer lifecycle events: one `timer_create` that succeeded, one
`timer_delete` call. -/
inductive TEv where
  | created : TEv
  | deleted : TEv
deriving DecidableEq, Repr

/-- Model of `add_timer` (src/timer.rs). `createOk` covers the
`clock_gettime`/`timer_create` calls succeeding; when `timer_settime` fails
the just-created timer is deleted before the error is returned. Result:
(the timer handle when armed, the timer events). -/
def addTimer (createOk settimeOk : Bool) : Option Unit × List TEv :=
  if createOk then
    if settimeOk then (some (), [TEv.created])
    else (none, [TEv.created, TEv.deleted])
  else (none, [])

/-- One loop iteration's environment for `sleep_until`: the
`SystemTime::now()` reading at the top of the iteration and whether the
timer syscalls of that iteration succeed. -/
structure SleepStep where
  now : Int
  createOk : Bool
  settimeOk : Bool
deriving DecidableEq, Repr

/-- Model of `sleep_until` (src/timer.rs), driven by a finite schedule of
loop iterations; the signal wait always eventually returns.
`target.duration_since(now)` is an error exactly when `target < now`, upon
which the function returns `Ok(())` immediately. Each armed timer is
deleted after the signal arrives, before the next iteration. Returns
`some true` for `Ok(())`, `some false` for a propagated timer error,
`none` when the schedule is exhausted, plus all timer events in order. -/
def sleepUntil (target : Int) : List SleepStep → Option Bool × List TEv
  | [] => (none, [])
  | step :: rest =>
    if target < step.now then (some true, [])
    else
      match addTimer step.createOk step.settimeOk with
      | (none, evs) => (some false, evs)
      | (some _, evs) =>
        let next := sleepUntil target rest
        (next.1, evs ++ [TEv.deleted] ++ next.2)

/-- Gregorian leap-year rule used by the `time` crate's calendar. -/
def isLeapYear (y : Int) : Bool :=
  decide (y % 4 = 0 ∧ (y % 100 ≠ 0 ∨ y % 400 = 0))

/-- Number of days in a month of the proleptic Gregorian calendar, as
validated by the `time` crate's `Date::from_calendar_date`. -/
def daysInMonth (y m : Int) : Int :=
  if m = 2 then (if isLeapYear y then 29 else 28)
  else if m = 4 ∨ m = 6 ∨ m = 9 ∨ m = 11 then 30
  else 31

/-- Day number since 1970-01-01 of a civil (proleptic Gregorian) date;
standard civil-calendar arithmetic matching the `time` crate. -/
def daysFromCivil (y m d : Int) : Int :=
  let y := if m ≤ 2 then y - 1 else y
  let era := Int.fdiv y 400
  let yoe := y - era * 400
  let doy := Int.fdiv (153 * (if 2 < m then m - 3 else m + 9) + 2) 5 + d - 1
  let doe := yoe * 365 + Int.fdiv yoe 4 - Int.fdiv yoe 100 + doy
  era * 146097 + doe - 719468

/-- Civil (proleptic Gregorian) date of a day number since 1970-01-01,
returned as (year, month, day); inverse of `daysFromCivil`. -/
def civilFromDays (z : Int) : Int × Int × Int :=
  let z := z + 719468
  let era := Int.fdiv z 146097
  let doe := z - era * 146097
  let yoe :=
    Int.fdiv (doe - Int.fdiv doe 1460 + Int.fdiv doe 36524 - Int.fdiv doe 146096) 365
  let y := yoe + era * 400
  let doy := doe - (365 * yoe + Int.fdiv yoe 4 - Int.fdiv yoe 100)
  let mp := Int.fdiv (5 * doy + 2) 153
  let d := doy - Int.fdiv (153 * mp + 2) 5 + 1
  let m := if mp < 10 then mp + 3 else mp - 9
  (if m ≤ 2 then y + 1 else y, m, d)

/-- Linux `struct rtc_time` as declared in rezz/src/ioctl.rs (all fields
i32; `tm_wday`, `tm_yday`, `tm_isdst` unused). -/
structure RtcTime where
  tm_sec : Int
  tm_min : Int
  tm_hour : Int
  tm_mday : Int
  tm_mon : Int
  tm_year : Int
  tm_wday : Int
  tm_yday : Int
  tm_isdst : Int
deriving DecidableEq, Repr

/-- Model of `From<OffsetDateTime> for RtcTime`: converts the instant to UTC
(which does not change the instant) and stores its calendar fields, with
`tm_mon` 0-based (`month as i32 - 1`) and `tm_year` offset by 1900. -/
def RtcTime.ofInstant (t : Int) : RtcTime :=
  let days := Int.fdiv t 86400
  let rem := t - 86400 * days
  let c := civilFromDays days
  { tm_sec := rem % 60
    tm_min := Int.fdiv rem 60 % 60
    tm_hour := Int.fdiv rem 3600
    tm_mday := c.2.2
    tm_mon := c.2.1 - 1
    tm_year := c.1 - 1900
    tm_wday := 0
    tm_yday := 0
    tm_isdst := 0 }

/-- Model of `TryFrom<RtcTime> for OffsetDateTime` exactly as written in
rezz/src/ioctl.rs: `month` is built by feeding `tm_mon` (a 0-based field)
to the 1-based `Month::try_from`, and `day` is also read from `tm_mon`
(`let day = u8::try_from(time.tm_mon)?`), not from `tm_mday`.
`u8::try_from` bounds each field to 0..=255, `Date::from_calendar_date`
validates the year range and the day against the month length, and
`Time::from_hms` validates hour/minute/second. The final
`assume_utc().to_offset(local)` only changes the display offset, so the
reconstructed instant is the UTC interpretation of the fields. Returns the
unix timestamp of the reconstructed instant, or none on any failed
conversion. -/
def RtcTime.toInstant (time : RtcTime) : Option Int :=
  if time.tm_mon < 0 ∨ 255 < time.tm_mon then none
  else if time.tm_mon < 1 ∨ 12 < time.tm_mon then none
  else
    let month := time.tm_mon
    let day := time.tm_mon
    if time.tm_hour < 0 ∨ 255 < time.tm_hour then none
    else if time.tm_min < 0 ∨ 255 < time.tm_min then none
    else if time.tm_sec < 0 ∨ 255 < time.tm_sec then none
    else
      let year := time.tm_year + 1900
      if year < -9999 ∨ 9999 < year then none
      else if day < 1 ∨ daysInMonth year month < day then none
      else if 23 < time.tm_hour ∨ 59 < time.tm_min ∨ 59 < time.tm_sec then none
      else some (86400 * daysFromCivil year month day +
        3600 * time.tm_hour + 60 * time.tm_min + time.tm_sec)

/-- The `struct rtc_wkalm` register layout of rezz/src/ioctl.rs. -/
structure RtcWkalm where
  enabled : Bool
  pending : Bool
  time : RtcTime
deriving DecidableEq, Repr

/-- Model of `From<OffsetDateTime> for RtcWkalm`, the conversion used by
`set_wakeup`. -/
def RtcWkalm.ofInstant (t : Int) : RtcWkalm :=
  ⟨true, false, RtcTime.ofInstant t⟩

/-- Model of `From<RtcWkalm> for Option<OffsetDateTime>`, the conversion
used by `get_wakeup`: none when the register is disabled or the field
conversion fails. -/
def RtcWkalm.toInstant (w : RtcWkalm) : Option Int :=
  if w.enabled then w.time.toInstant else none

/-- Rust `v as u64` reinterpretation of an i64 value: the representative of
v modulo 2^64 in [0, 2^64). -/
def u64Cast (v : Int) : Int := v % (2 : Int) ^ 64

/-- The client-side sort of `Alarms::next_alarm` (src/lib.rs):
`alarms.sort_by(|a, b| a.unix_time.cmp(&b.unix_time))`, a stable sort by
trigger time, modelled by the equally stable insertion sort. -/
def sortByTime (alarms : List Alarm) : List Alarm :=
  List.insertionSort (fun a b => a.unix_time ≤ b.unix_time) alarms

/-- Model of `Alarms::next_alarm` (src/lib.rs): sorts by `unix_time` and
returns the first alarm with `alarm.unix_time as u64 > current_secs`. -/
def nextAlarm (currentSecs : Int) (alarms : List Alarm) : Option Alarm :=
  (sortByTime alarms).find? (fun a => decide (currentSecs < u64Cast a.unix_time))

theorem length_sub_length_filter (p : Alarm → Bool) (l : List Alarm) :
    l.length - (l.filter p).length = (l.filter (fun a => ! p a)).length := by
  induction l with
  | nil => rfl
  | cons x rest ih =>
    have hle := List.length_filter_le p rest
    cases hx : p x <;> simp [List.filter_cons, hx] <;> omega

theorem removeFirstById_sublist (id : String) (l : List Alarm) :
    ∀ r rest, removeFirstById id l = some (r, rest) → rest.Sublist l := by
  induction l with
  | nil => intro r rest h; simp [removeFirstById] at h
  | cons x xs ih =>
    intro r rest h
    simp only [removeFirstById] at h
    by_cases hx : (x.id == id) = true
    · rw [if_pos hx] at h
      injection h with h
      injection h with h1 h2
      subst h2
      exact (List.Sublist.refl xs).cons x
    · rw [if_neg hx] at h
      cases hr : removeFirstById id xs with
      | none => rw [hr] at h; cases h
      | some p =>
        obtain ⟨r', rest'⟩ := p
        rw [hr] at h
        injection h with h
        injection h with h1 h2
        subst h2
        exact (ih r' rest' hr).cons₂ x

theorem removeFirstById_eq_none (id : String) (l : List Alarm)
    (h : ∀ x ∈ l, x.id ≠ id) : removeFirstById id l = none := by
  induction l with
  | nil => rfl
  | cons x xs ih =>
    have hx : (x.id == id) = false :=
      beq_eq_false_iff_ne.mpr (h x (List.mem_cons_self x xs))
    have hxs : removeFirstById id xs = none :=
      ih (fun y hy => h y (List.mem_cons_of_mem x hy))
    simp [removeFirstById, hx, hxs]

theorem add_preserves_nodup (a : Alarm) (l : List Alarm)
    (h : (l.map Alarm.id).Nodup) :
    (((Store.add a l).2.1).map Alarm.id).Nodup := by
  by_cases hdup : (l.any fun existing => existing.id == a.id) = true
  · simpa [Store.add, hdup] using h
  · simp only [Store.add, hdup, if_false, Bool.false_eq_true]
    rw [List.map_append, List.map_cons, List.map_nil]
    refine List.Nodup.append h (List.nodup_singleton _) ?_
    rw [List.disjoint_singleton]
    intro hmem
    rcases List.mem_map.mp hmem with ⟨x, hx, hxid⟩
    exact hdup (List.any_eq_true.mpr ⟨x, hx, beq_iff_eq.mpr hxid⟩)

theorem remove_preserves_nodup (id : String) (l : List Alarm)
    (h : (l.map Alarm.id).Nodup) :
    (((Store.remove id l).2.1).map Alarm.id).Nodup := by
  cases hr : removeFirstById id l with
  | none => simpa [Store.remove, hr] using h
  | some p =>
    obtain ⟨r, rest⟩ := p
    have hsub : rest.Sublist l := removeFirstById_sublist id l r rest hr
    simp only [Store.remove, hr]
    exact (hsub.map Alarm.id).nodup h

theorem upcoming_cons_ne_none (x : Alarm) (rest : List Alarm) :
    Store.upcoming (x :: rest) ≠ none := by
  cases h : Store.upcoming rest with
  | none => simp [Store.upcoming, h]
  | some b =>
    simp only [Store.upcoming, h]
    split <;> simp

/-- C1 (amended): `Store::upcoming` ignores elapsedness entirely: it returns
none exactly when the store is empty, and otherwise returns a stored alarm
whose `unix_time` is minimal among all stored alarms, elapsed or not. -/
theorem C1_upcoming_min (l : List Alarm) :
    (Store.upcoming l = none ↔ l = []) ∧
    ∀ a, Store.upcoming l = some a →
      a ∈ l ∧ ∀ b ∈ l, a.unix_time ≤ b.unix_time := by
  induction l with
  | nil =>
    refine ⟨by simp [Store.upcoming], ?_⟩
    intro a h
    simp [Store.upcoming] at h
  | cons x rest ih =>
    refine ⟨?_, ?_⟩
    · constructor
      · intro h; exact absurd h (upcoming_cons_ne_none x rest)
      · intro h; exact absurd h (List.cons_ne_nil x rest)
    · cases h : Store.upcoming rest with
      | none =>
        have hrest : rest = [] := (ih.1).mp h
        subst hrest
        intro a ha
        simp only [Store.upcoming] at ha
        rw [Option.some_inj] at ha
        subst ha
        refine ⟨List.mem_singleton_self x, ?_⟩
        intro b hb
        rw [List.mem_singleton] at hb
        subst hb
        exact le_refl _
      | some b =>
        intro a ha
        simp only [Store.upcoming, h] at ha
        obtain ⟨hbmem, hbmin⟩ := ih.2 b h
        by_cases hle : x.unix_time ≤ b.unix_time
        · rw [if_pos hle, Option.some_inj] at ha
          subst ha
          refine ⟨List.mem_cons_self x rest, ?_⟩
          intro c hc
          rcases List.mem_cons.mp hc with hc | hc
          · subst hc; exact le_refl _
          · exact le_trans hle (hbmin c hc)
        · rw [if_neg hle, Option.some_inj] at ha
          subst ha
          refine ⟨List.mem_cons_of_mem x hbmem, ?_⟩
          intro c hc
          rcases List.mem_cons.mp hc with hc | hc
          · subst hc; exact le_of_not_le hle
          · exact hbmin c hc

/-- Witness for C1 at a concrete two-alarm store. -/
theorem C1_upcoming_min_witness :
    (⟨"b", 3, 0⟩ : Alarm) ∈ [(⟨"a", 5, 0⟩ : Alarm), ⟨"b", 3, 0⟩] ∧
    ∀ b ∈ [(⟨"a", 5, 0⟩ : Alarm), ⟨"b", 3, 0⟩],
      (⟨"b", 3, 0⟩ : Alarm).unix_time ≤ b.unix_time :=
  (C1_upcoming_min [⟨"a", 5, 0⟩, ⟨"b", 3, 0⟩]).2 ⟨"b", 3, 0⟩ (by decide)

/-- C1 counterexample: with a store whose single alarm is already elapsed at
time 100 (`unix_time` 0, `ring_seconds` 0), `upcoming` returns that alarm
instead of none. -/
theorem C1_counterexample :
    Store.upcoming [⟨"a", 0, 0⟩] = some ⟨"a", 0, 0⟩ ∧
    notElapsed 100 ⟨"a", 0, 0⟩ = false := by decide

/-- C3 counterexample: adding a fresh alarm to the empty store emits the
change broadcast before the file rewrite, not after it. -/
theorem C3_counterexample :
    (Store.add ⟨"a", 1, 2⟩ []).2.2 = [Ev.notify, Ev.fileWrite [⟨"a", 1, 2⟩]] ∧
    (Store.add ⟨"a", 1, 2⟩ []).2.2 ≠ [Ev.fileWrite [⟨"a", 1, 2⟩], Ev.notify] := by
  decide

/-- C3 (amended): every mutating store operation (add of a fresh id, remove
of a present id, remove_elapsed with nonzero count) synchronously emits,
before returning, first the change broadcast and then the full-file rewrite
of the new snapshot, in that order. -/
theorem C3_sync_order (a : Alarm) (id : String) (now : Int) (l : List Alarm) :
    ((Store.add a l).1 = true →
      (Store.add a l).2.2 = [Ev.notify, Ev.fileWrite (Store.add a l).2.1]) ∧
    ((Store.remove id l).1.isSome = true →
      (Store.remove id l).2.2 =
        [Ev.notify, Ev.fileWrite (Store.remove id l).2.1]) ∧
    (0 < (Store.removeElapsed now l).1 →
      (Store.removeElapsed now l).2.2 =
        [Ev.notify, Ev.fileWrite (Store.removeElapsed now l).2.1]) := by
  refine ⟨?_, ?_, ?_⟩
  · by_cases hdup : (l.any fun existing => existing.id == a.id) = true
    · simp [Store.add, hdup]
    · simp [Store.add, hdup, Store.sync]
  · cases h : removeFirstById id l with
    | none => simp [Store.remove, h]
    | some p => simp [Store.remove, h, Store.sync]
  · intro h
    simp only [Store.removeElapsed] at h ⊢
    rw [if_pos h]
    rfl

/-- Witness for C3 at concrete mutations of each kind. -/
theorem C3_sync_order_witness :
    (Store.add ⟨"a", 1, 2⟩ []).2.2 =
      [Ev.notify, Ev.fileWrite (Store.add ⟨"a", 1, 2⟩ []).2.1] ∧
    (Store.remove "a" [⟨"a", 1, 2⟩]).2.2 =
      [Ev.notify, Ev.fileWrite (Store.remove "a" [⟨"a", 1, 2⟩]).2.1] ∧
    (Store.removeElapsed 100 [⟨"a", 0, 0⟩]).2.2 =
      [Ev.notify, Ev.fileWrite (Store.removeElapsed 100 [⟨"a", 0, 0⟩]).2.1] :=
  ⟨(C3_sync_order ⟨"a", 1, 2⟩ "x" 0 []).1 (by decide),
   (C3_sync_order ⟨"x", 0, 0⟩ "a" 0 [⟨"a", 1, 2⟩]).2.1 (by decide),
   (C3_sync_order ⟨"x", 0, 0⟩ "x" 100 [⟨"a", 0, 0⟩]).2.2 (by decide)⟩

/-- C4: over any sequence of add/remove calls from a store with pairwise
distinct ids, the ids stay pairwise distinct; add with a present id returns
false leaving store, file and change channel untouched; add with a fresh id
appends the alarm and returns true. -/
theorem C4_id_uniqueness (ops : List StoreOp) (l0 : List Alarm)
    (h : (l0.map Alarm.id).Nodup) :
    ((applyOps ops l0).map Alarm.id).Nodup ∧
    (∀ a l, (∃ x ∈ l, x.id = a.id) → Store.add a l = (false, l, [])) ∧
    (∀ a l, (∀ x ∈ l, x.id ≠ a.id) →
      Store.add a l = (true, l ++ [a], Store.sync (l ++ [a]))) := by
  refine ⟨?_, ?_, ?_⟩
  · induction ops generalizing l0 with
    | nil => exact h
    | cons op rest ih =>
      have h1 : ((applyOp op l0).map Alarm.id).Nodup := by
        cases op with
        | add a => exact add_preserves_nodup a l0 h
        | remove id => exact remove_preserves_nodup id l0 h
      simpa [applyOps, List.foldl_cons] using ih (applyOp op l0) h1
  · intro a l hex
    have hany : (l.any fun existing => existing.id == a.id) = true := by
      rcases hex with ⟨x, hx, he⟩
      exact List.any_eq_true.mpr ⟨x, hx, beq_iff_eq.mpr he⟩
    simp [Store.add, hany]
  · intro a l hne
    have hany : (l.any fun existing => existing.id == a.id) = false := by
      rw [List.any_eq_false]
      intro x hx
      simp only [beq_iff_eq]
      exact hne x hx
    simp [Store.add, hany]

/-- Witness for C4: a duplicate-id add is rejected without effects, a
fresh-id add is appended. -/
theorem C4_id_uniqueness_witness :
    Store.add ⟨"a", 7, 1⟩ [⟨"a", 3, 0⟩] = (false, [⟨"a", 3, 0⟩], []) ∧
    Store.add ⟨"b", 7, 1⟩ [⟨"a", 3, 0⟩] =
      (true, [⟨"a", 3, 0⟩] ++ [⟨"b", 7, 1⟩],
        Store.sync ([⟨"a", 3, 0⟩] ++ [⟨"b", 7, 1⟩])) :=
  ⟨(C4_id_uniqueness [] [] (by decide)).2.1 ⟨"a", 7, 1⟩ [⟨"a", 3, 0⟩]
      ⟨⟨"a", 3, 0⟩, by decide, rfl⟩,
   (C4_id_uniqueness [] [] (by decide)).2.2 ⟨"b", 7, 1⟩ [⟨"a", 3, 0⟩] (by decide)⟩

/-- C7: `Store::remove_elapsed` retains exactly the non-elapsed alarms in
their original order, returns the number of removed alarms, emits the sync
effects exactly when that number is nonzero, and an immediate second call
with the same clock removes nothing and emits nothing. -/
theorem C7_remove_elapsed (now : Int) (l : List Alarm) :
    (Store.removeElapsed now l).2.1 = l.filter (notElapsed now) ∧
    (Store.removeElapsed now l).1 =
      (l.filter fun a => ! notElapsed now a).length ∧
    ((Store.removeElapsed now l).1 = 0 → (Store.removeElapsed now l).2.2 = []) ∧
    (0 < (Store.removeElapsed now l).1 →
      (Store.removeElapsed now l).2.2 = Store.sync (l.filter (notElapsed now))) ∧
    Store.removeElapsed now ((Store.removeElapsed now l).2.1) =
      (0, l.filter (notElapsed now), []) := by
  have hself : (l.filter (notElapsed now)).filter (notElapsed now) =
      l.filter (notElapsed now) :=
    List.filter_eq_self.mpr (fun a ha => List.of_mem_filter ha)
  refine ⟨rfl, length_sub_length_filter (notElapsed now) l, ?_, ?_, ?_⟩
  · intro h
    simp only [Store.removeElapsed] at h ⊢
    rw [h]
    rfl
  · intro h
    simp only [Store.removeElapsed] at h ⊢
    rw [if_pos h]
  · simp [Store.removeElapsed, hself]

/-- Witness for C7: a call removing nothing emits nothing; a call removing
one elapsed alarm emits the sync effects of the retained snapshot. -/
theorem C7_remove_elapsed_witness :
    (Store.removeElapsed 100 [(⟨"b", 200, 5⟩ : Alarm)]).2.2 = [] ∧
    (Store.removeElapsed 100 [(⟨"a", 0, 0⟩ : Alarm), ⟨"b", 200, 5⟩]).2.2 =
      Store.sync
        ([(⟨"a", 0, 0⟩ : Alarm), ⟨"b", 200, 5⟩].filter (notElapsed 100)) :=
  ⟨(C7_remove_elapsed 100 [⟨"b", 200, 5⟩]).2.2.1 (by decide),
   (C7_remove_elapsed 100 [⟨"a", 0, 0⟩, ⟨"b", 200, 5⟩]).2.2.2.1 (by decide)⟩

/-- C9: at the service boundary, add_alarm with a present id fails with the
already-exists error while store, file and channel stay untouched, and
remove_alarm with an unknown id fails with the invalid-id error while the
store stays untouched; the internal `Store::remove` instead merely returns
none for the same unknown id. -/
theorem C9_service_errors (a : Alarm) (rid : String) (l : List Alarm)
    (staged : Option Int) (now : Int) :
    ((∃ x ∈ l, x.id = a.id) →
      Store.add a l = (false, l, []) ∧
      Rezz.addAlarm a l staged now =
        Except.error (SvcError.alreadyExists a.id)) ∧
    ((∀ x ∈ l, x.id ≠ rid) →
      Store.remove rid l = (none, l, []) ∧
      Rezz.removeAlarm rid l staged now =
        Except.error (SvcError.invalidId rid)) := by
  constructor
  · intro hex
    have hany : (l.any fun existing => existing.id == a.id) = true := by
      rcases hex with ⟨x, hx, he⟩
      exact List.any_eq_true.mpr ⟨x, hx, beq_iff_eq.mpr he⟩
    have hadd : Store.add a l = (false, l, []) := by simp [Store.add, hany]
    exact ⟨hadd, by simp [Rezz.addAlarm, hadd]⟩
  · intro hne
    have hnone : removeFirstById rid l = none := removeFirstById_eq_none rid l hne
    have hrem : Store.remove rid l = (none, l, []) := by
      simp [Store.remove, hnone]
    exact ⟨hrem, by simp [Rezz.removeAlarm, hrem]⟩

/-- Witness for C9 at a concrete duplicate add and unknown-id remove. -/
theorem C9_service_errors_witness :
    (Store.add ⟨"a", 9, 1⟩ [⟨"a", 3, 0⟩] = (false, [⟨"a", 3, 0⟩], []) ∧
      Rezz.addAlarm ⟨"a", 9, 1⟩ [⟨"a", 3, 0⟩] none 0 =
        Except.error (SvcError.alreadyExists (⟨"a", 9, 1⟩ : Alarm).id)) ∧
    (Store.remove "z" [⟨"a", 3, 0⟩] = (none, [⟨"a", 3, 0⟩], []) ∧
      Rezz.removeAlarm "z" [⟨"a", 3, 0⟩] none 0 =
        Except.error (SvcError.invalidId "z")) :=
  ⟨(C9_service_errors ⟨"a", 9, 1⟩ "z" [⟨"a", 3, 0⟩] none 0).1
      ⟨⟨"a", 3, 0⟩, by decide, rfl⟩,
   (C9_service_errors ⟨"a", 9, 1⟩ "z" [⟨"a", 3, 0⟩] none 0).2 (by decide)⟩

theorem scheduleNearest_empty_register (l : List Alarm) (now : Int) :
    scheduleNearest l none now = Option.map Alarm.unix_time (Store.upcoming l) := by
  cases hu : Store.upcoming l <;> simp [scheduleNearest, hu]

/-- C5: `schedule_nearest` leaves a wakeup staged in the future at or before
the nearest alarm's trigger time untouched; whenever it changes the register
it stages exactly the nearest alarm's trigger time; and while a staged
wakeup lies in the future the staged time never increases. -/
theorem C5_schedule_monotone (l : List Alarm) (staged : Option Int) (now : Int) :
    (Store.upcoming l = none → scheduleNearest l staged now = staged) ∧
    (∀ w a, staged = some w → now < w → Store.upcoming l = some a →
      w ≤ a.unix_time → scheduleNearest l staged now = staged) ∧
    (scheduleNearest l staged now ≠ staged →
      ∃ a, Store.upcoming l = some a ∧
        scheduleNearest l staged now = some a.unix_time) ∧
    (∀ w t, staged = some w → now < w →
      scheduleNearest l staged now = some t → t ≤ w) := by
  cases hu : Store.upcoming l with
  | none =>
    have hs : scheduleNearest l staged now = staged := by
      simp [scheduleNearest, hu]
    refine ⟨fun _ => hs, ?_, fun hne => absurd hs hne, ?_⟩
    · intro w a _ _ ha _
      cases ha
    · intro w t hw _ ht
      rw [hs, hw] at ht
      exact le_of_eq (Option.some_inj.mp ht).symm
  | some b =>
    cases staged with
    | none =>
      have hs : scheduleNearest l none now = some b.unix_time := by
        simp [scheduleNearest, hu]
      refine ⟨?_, ?_, fun _ => ⟨b, rfl, hs⟩, ?_⟩
      · intro h; cases h
      · intro w a hw; cases hw
      · intro w t hw; cases hw
    | some w =>
      by_cases hc : w > now ∧ b.unix_time ≥ w
      · have hs : scheduleNearest l (some w) now = some w := by
          simp only [scheduleNearest, hu]
          rw [if_pos hc]
        refine ⟨?_, fun _ _ _ _ _ _ => hs, fun hne => absurd hs hne, ?_⟩
        · intro h; cases h
        · intro w' t hw' _ ht
          have hww : w = w' := Option.some_inj.mp hw'
          subst hww
          rw [hs] at ht
          exact le_of_eq (Option.some_inj.mp ht).symm
      · have hs : scheduleNearest l (some w) now = some b.unix_time := by
          simp only [scheduleNearest, hu]
          rw [if_neg hc]
        refine ⟨?_, ?_, fun _ => ⟨b, rfl, hs⟩, ?_⟩
        · intro h; cases h
        · intro w' a hw' hnow ha hle
          have hww : w = w' := Option.some_inj.mp hw'
          subst hww
          rw [Option.some_inj] at ha
          subst ha
          exact absurd ⟨hnow, hle⟩ hc
        · intro w' t hw' hnow ht
          have hww : w = w' := Option.some_inj.mp hw'
          subst hww
          rw [hs] at ht
          have h2 : b.unix_time = t := Option.some_inj.mp ht
          have h3 : ¬ (w ≤ b.unix_time) := fun hle => hc ⟨hnow, hle⟩
          omega

/-- Witness for C5: a staged future wakeup at time 50, before the only
alarm's trigger time 100, is left untouched. -/
theorem C5_schedule_monotone_witness :
    scheduleNearest [⟨"a", 100, 5⟩] (some 50) 0 = some 50 :=
  (C5_schedule_monotone [⟨"a", 100, 5⟩] (some 50) 0).2.1 50 ⟨"a", 100, 5⟩
    rfl (by decide) (by decide) (by decide)

/-- C6: when `remove_alarm` removes a present alarm, `clear_wakeup` is
invoked exactly when the staged wakeup time equals the removed alarm's
trigger instant; otherwise the register is untouched; and after clearing,
the register is re-staged from the remaining store's nearest alarm. -/
theorem C6_remove_clears_matching (id : String) (l : List Alarm)
    (staged : Option Int) (now : Int) (out : RemoveOutcome)
    (h : Rezz.removeAlarm id l staged now = Except.ok out) :
    (out.cleared = true ↔ staged = some out.removed.unix_time) ∧
    (out.cleared = false → out.staged = staged) ∧
    (out.cleared = true →
      out.staged = Option.map Alarm.unix_time (Store.upcoming out.alarms)) := by
  unfold Rezz.removeAlarm at h
  rcases hr : Store.remove id l with ⟨removedOpt, rest, evs⟩
  rw [hr] at h
  cases removedOpt with
  | none => simp at h
  | some removed =>
    cases staged with
    | none =>
      simp only [] at h
      rw [Except.ok.injEq] at h
      subst h
      refine ⟨?_, fun _ => rfl, ?_⟩
      · constructor
        · intro hcl; simp at hcl
        · intro hst; cases hst
      · intro hcl; simp at hcl
    | some w =>
      by_cases he : removed.unix_time = w
      · simp only [if_pos he] at h
        rw [Except.ok.injEq] at h
        subst h
        refine ⟨?_, ?_, ?_⟩
        · exact ⟨fun _ => by rw [he], fun _ => rfl⟩
        · intro hcl; simp at hcl
        · intro _
          exact scheduleNearest_empty_register rest now
      · simp only [if_neg he] at h
        rw [Except.ok.injEq] at h
        subst h
        refine ⟨⟨fun hcl => by simp at hcl, fun hst => ?_⟩, fun _ => rfl,
          fun hcl => by simp at hcl⟩
        exact absurd (Option.some_inj.mp hst).symm he

/-- Witness for C6: the spec scenario, alarms a at 100 and b at 50 with the
register staged at 50; removing b clears and re-stages from the remaining
nearest alarm. -/
theorem C6_remove_clears_matching_witness :
    (⟨⟨"b", 50, 5⟩, [⟨"a", 100, 5⟩], Store.sync [⟨"a", 100, 5⟩],
        scheduleNearest [⟨"a", 100, 5⟩] none 0, true⟩ : RemoveOutcome).staged =
      Option.map Alarm.unix_time
        (Store.upcoming
          (⟨⟨"b", 50, 5⟩, [⟨"a", 100, 5⟩], Store.sync [⟨"a", 100, 5⟩],
            scheduleNearest [⟨"a", 100, 5⟩] none 0, true⟩ : RemoveOutcome).alarms) :=
  (C6_remove_clears_matching "b" [⟨"a", 100, 5⟩, ⟨"b", 50, 5⟩] (some 50) 0
    ⟨⟨"b", 50, 5⟩, [⟨"a", 100, 5⟩], Store.sync [⟨"a", 100, 5⟩],
      scheduleNearest [⟨"a", 100, 5⟩] none 0, true⟩ rfl).2.2 rfl

/-- C2 (code bug): the register round-trip of rezz/src/ioctl.rs loses the
instant. Converting 1970-03-15T00:00:00Z (unix 6307200) to the register
fields and back yields 1970-02-02T00:00:00Z (unix 2764800), because
`TryFrom<RtcTime>` reads both the month and the day from the 0-based
`tm_mon` field; January instants (here 1970-01-05T00:00:00Z, unix 345600,
stored with `tm_mon = 0`) fail to convert at all. -/
theorem C2_roundtrip_bug :
    RtcWkalm.toInstant (RtcWkalm.ofInstant 6307200) = some 2764800 ∧
    (2764800 : Int) ≠ 6307200 ∧
    RtcWkalm.toInstant (RtcWkalm.ofInstant 345600) = none := by decide

theorem sleepUntil_paired (target : Int) (steps : List SleepStep) :
    ∃ n, (sleepUntil target steps).2 =
      (List.replicate n [TEv.created, TEv.deleted]).flatten := by
  induction steps with
  | nil => exact ⟨0, rfl⟩
  | cons step rest ih =>
    simp only [sleepUntil]
    by_cases ht : target < step.now
    · refine ⟨0, ?_⟩
      rw [if_pos ht]
      rfl
    · rw [if_neg ht]
      cases hc : step.createOk with
      | false => exact ⟨0, by simp [addTimer]⟩
      | true =>
        cases hs : step.settimeOk with
        | false => exact ⟨1, by simp [addTimer]⟩
        | true =>
          obtain ⟨n, hn⟩ := ih
          refine ⟨n + 1, ?_⟩
          simp only [addTimer, if_pos, if_true]
          rw [List.replicate_succ, List.flatten_cons]
          simp [hn]

/-- C8 counterexample: `sleep_until` invoked with the target equal to the
current clock reading (hence at or before now) still creates and arms a
kernel timer, because `duration_since` only errors for a strictly past
target. -/
theorem C8_counterexample :
    sleepUntil 0 [⟨0, true, true⟩, ⟨1, true, true⟩] =
      (some true, [TEv.created, TEv.deleted]) ∧
    TEv.created ∈ (sleepUntil 0 [⟨0, true, true⟩, ⟨1, true, true⟩]).2 := by
  decide

/-- C8 (amended): for a target strictly before the clock reading at
invocation, `sleep_until` returns success immediately with no timer events;
a `timer_settime` failure inside `add_timer` deletes the just-created timer
before propagating the error; and on every schedule the event trace is a
sequence of create/delete pairs, so each created timer is released exactly
once, including on the final iteration before returning. -/
theorem C8_sleep_until_resources (target : Int) (step : SleepStep)
    (rest : List SleepStep) :
    (target < step.now → sleepUntil target (step :: rest) = (some true, [])) ∧
    addTimer true false = (none, [TEv.created, TEv.deleted]) ∧
    ∀ steps : List SleepStep, ∃ n,
      (sleepUntil target steps).2 =
        (List.replicate n [TEv.created, TEv.deleted]).flatten :=
  ⟨fun ht => by simp [sleepUntil, ht], by decide,
   fun steps => sleepUntil_paired target steps⟩

/-- Witness for C8: a strictly past target returns success with an empty
trace. -/
theorem C8_sleep_until_resources_witness :
    sleepUntil 0 [⟨5, true, true⟩] = (some true, []) :=
  (C8_sleep_until_resources 0 ⟨5, true, true⟩ []).1 (by decide)

instance : IsTotal Alarm (fun a b => a.unix_time ≤ b.unix_time) :=
  ⟨fun a b => Int.le_total a.unix_time b.unix_time⟩

instance : IsTrans Alarm (fun a b => a.unix_time ≤ b.unix_time) :=
  ⟨fun _ _ _ h1 h2 => le_trans h1 h2⟩

theorem findFirstSortedMin (p : Alarm → Bool) (s : List Alarm)
    (hs : List.Sorted (fun a b : Alarm => a.unix_time ≤ b.unix_time) s)
    (a : Alarm) (h : s.find? p = some a) :
    ∀ b ∈ s, p b = true → a.unix_time ≤ b.unix_time := by
  induction s with
  | nil => simp at h
  | cons c rest ih =>
    rw [List.sorted_cons] at hs
    by_cases hc : p c = true
    · rw [List.find?_cons_of_pos _ hc, Option.some_inj] at h
      subst h
      intro b hb _
      rcases List.mem_cons.mp hb with rfl | hb
      · exact le_refl _
      · exact hs.1 b hb
    · rw [List.find?_cons_of_neg _ hc] at h
      intro b hb hpb
      rcases List.mem_cons.mp hb with rfl | hb
      · exact absurd hpb hc
      · exact ih hs.2 h b hb hpb

/-- C10 counterexample: `next_alarm` compares `unix_time as u64`, so an
alarm with a negative trigger time is treated as far in the future: with
alarms at unix times -1 and 200 and the clock at 100, the code returns the
alarm at -1, whose trigger time is not greater than the current time. -/
theorem C10_counterexample :
    nextAlarm 100 [⟨"a", -1, 0⟩, ⟨"b", 200, 0⟩] = some ⟨"a", -1, 0⟩ ∧
    (⟨"a", -1, 0⟩ : Alarm).unix_time < 100 := by decide

/-- C10 (amended): for alarms whose trigger times are nonnegative i64
values, the client-side `next_alarm` returns none when no alarm lies
strictly after the current time, and otherwise an alarm of the list with
minimal `unix_time` among those strictly after the current time; an alarm
whose trigger time has arrived or passed is excluded even while the current
time is still inside its ring window, where the daemon store would still
retain it (the comparison is performed on `unix_time` cast to u64, so
negative trigger times are instead treated as far-future values). -/
theorem C10_next_alarm_strict (now : Int) (l : List Alarm)
    (hl : ∀ a ∈ l, 0 ≤ a.unix_time ∧ a.unix_time < 2 ^ 63) :
    (nextAlarm now l = none ↔ ∀ a ∈ l, a.unix_time ≤ now) ∧
    (∀ a, nextAlarm now l = some a →
      a ∈ l ∧ now < a.unix_time ∧
        ∀ b ∈ l, now < b.unix_time → a.unix_time ≤ b.unix_time) ∧
    (∀ a ∈ l, a.unix_time ≤ now →
      now < a.unix_time + (a.ring_seconds : Int) →
      nextAlarm now l ≠ some a ∧ notElapsed now a = true) := by
  have hperm : ∀ x : Alarm, x ∈ sortByTime l ↔ x ∈ l := fun x =>
    (List.perm_insertionSort (fun a b => a.unix_time ≤ b.unix_time) l).mem_iff
  have hcast : ∀ a ∈ l, u64Cast a.unix_time = a.unix_time := by
    intro a ha
    obtain ⟨h0, h63⟩ := hl a ha
    have h64 : a.unix_time < (2 : Int) ^ 64 := lt_trans h63 (by norm_num)
    exact Int.emod_eq_of_lt h0 h64
  have hsorted : List.Sorted (fun a b : Alarm => a.unix_time ≤ b.unix_time)
      (sortByTime l) :=
    List.sorted_insertionSort (fun a b => a.unix_time ≤ b.unix_time) l
  have hsome : ∀ a, nextAlarm now l = some a →
      a ∈ l ∧ now < a.unix_time ∧
        ∀ b ∈ l, now < b.unix_time → a.unix_time ≤ b.unix_time := by
    intro a ha
    have ha2 : (sortByTime l).find? (fun x => decide (now < u64Cast x.unix_time))
        = some a := ha
    have hmem : a ∈ l := (hperm a).mp (List.mem_of_find?_eq_some ha2)
    have hpa := List.find?_some ha2
    have hlt : now < a.unix_time := by
      have h2 : decide (now < u64Cast a.unix_time) = true := hpa
      have h3 := of_decide_eq_true h2
      rwa [hcast a hmem] at h3
    refine ⟨hmem, hlt, ?_⟩
    intro b hb hbnow
    refine findFirstSortedMin _ (sortByTime l) hsorted a ha2 b ((hperm b).mpr hb) ?_
    show decide (now < u64Cast b.unix_time) = true
    rw [decide_eq_true_eq, hcast b hb]
    exact hbnow
  refine ⟨?_, hsome, ?_⟩
  · constructor
    · intro hn a ha
      by_contra hgt
      rw [not_le] at hgt
      have hn2 : (sortByTime l).find? (fun x => decide (now < u64Cast x.unix_time))
          = none := hn
      have h4 := List.find?_eq_none.mp hn2 a ((hperm a).mpr ha)
      have h5 : ¬ decide (now < u64Cast a.unix_time) = true := h4
      rw [decide_eq_true_eq, hcast a ha] at h5
      exact h5 hgt
    · intro hall
      show (sortByTime l).find? (fun x => decide (now < u64Cast x.unix_time)) = none
      rw [List.find?_eq_none]
      intro x hx
      have hxl : x ∈ l := (hperm x).mp hx
      show ¬ decide (now < u64Cast x.unix_time) = true
      rw [decide_eq_true_eq, hcast x hxl]
      exact not_lt.mpr (hall x hxl)
  · intro a ha hpast hring
    refine ⟨?_, decide_eq_true hring⟩
    intro heq
    have := (hsome a heq).2.1
    omega

/-- Witness for C10 at a concrete one-alarm list with a future alarm. -/
theorem C10_next_alarm_strict_witness :
    (⟨"a", 5, 0⟩ : Alarm) ∈ [(⟨"a", 5, 0⟩ : Alarm)] ∧
    (3 : Int) < (⟨"a", 5, 0⟩ : Alarm).unix_time ∧
    ∀ b ∈ [(⟨"a", 5, 0⟩ : Alarm)], (3 : Int) < b.unix_time →
      (⟨"a", 5, 0⟩ : Alarm).unix_time ≤ b.unix_time :=
  (C10_next_alarm_strict 3 [⟨"a", 5, 0⟩] (by decide)).2.1 ⟨"a", 5, 0⟩ (by decide)
